import Mathlib

set_option maxHeartbeats 1000000

/-!
Shallow embedding of `src/fraocme/cycle/analysis.py` (cycle detection
utilities for state machines) together with proofs of the specified
properties.  States are an arbitrary type with decidable equality
(the Python code requires hashable, comparable states); the Python
`dict` used for seen-state bookkeeping is modelled as an association
list (keys are only ever inserted when absent, so the two agree).
The unbounded `while` loops of Floyd's algorithm are modelled with an
explicit fuel parameter, exhaustion returning `none`.
-/

namespace Fraocme

variable {S : Type} [DecidableEq S]

/-- The state reached after `n` applications of `step` to `init`
(the `state_at` notion of the specification). -/
def stateAt (step : S → S) (init : S) : Nat → S
  | 0 => init
  | n + 1 => step (stateAt step init n)

/-- Association-list model of the Python `dict` from states to
first-seen iteration indices. -/
def lookup : List (S × Nat) → S → Option Nat
  | [], _ => none
  | (k, v) :: rest, s => if k = s then some v else lookup rest s

/-- Phase 1 of `find_cycle`: the bounded tortoise/hare loop.  Each round
advances `slow` once and `fast` twice, breaking when they coincide; the
Python `for ... else` returns `None` when `max_iterations` rounds pass
without a meeting. -/
def floydPhase1 (step : S → S) : S → S → Nat → Option S
  | _, _, 0 => none
  | slow, fast, n + 1 =>
    let slow' := step slow
    let fast' := step (step fast)
    if slow' = fast' then some fast' else floydPhase1 step slow' fast' n

/-- Phase 2 of `find_cycle`: reset `slow` to the initial state and advance
both cursors in lockstep until they meet, counting the advances
(`cycle_start`).  The Python loop is unbounded; `fuel` models it, with
`none` standing for non-termination within the fuel. -/
def floydPhase2 (step : S → S) : Nat → S → S → Nat → Option (Nat × S)
  | 0, slow, fast, cs => if slow = fast then some (cs, slow) else none
  | fuel + 1, slow, fast, cs =>
    if slow = fast then some (cs, slow)
    else floydPhase2 step fuel (step slow) (step fast) (cs + 1)

/-- Phase 3 of `find_cycle`: with `slow` fixed at the cycle-start state,
advance a cursor from `step slow` counting steps until it returns to
`slow` (`cycle_length`). -/
def floydPhase3 (step : S → S) (slow : S) : Nat → S → Nat → Option Nat
  | 0, fast, cl => if slow = fast then some cl else none
  | fuel + 1, fast, cl =>
    if slow = fast then some cl
    else floydPhase3 step slow fuel (step fast) (cl + 1)

/-- `find_cycle` from `analysis.py`: Floyd's tortoise-and-hare detector.
Returns `(cycle_start, cycle_length, state_at_cycle_start)` or `none`.
`fuel` bounds the two unbounded `while` loops of phases 2 and 3. -/
def find_cycle (init : S) (step : S → S) (maxIter : Nat) (fuel : Nat) :
    Option (Nat × Nat × S) :=
  match floydPhase1 step init init maxIter with
  | none => none
  | some meet =>
    match floydPhase2 step fuel init meet 0 with
    | none => none
    | some (cs, slow) =>
      match floydPhase3 step slow fuel (step slow) 1 with
      | none => none
      | some cl => some (cs, cl, slow)

/-- The loop of `find_cycle_with_history`: at iteration `i` compute
`state' = step state`; if `state'` was seen before at index `cs`,
return `(cs, i - cs, history)`; otherwise record it and continue.
`fuel` counts the remaining iterations of `range(1, max_iterations)`. -/
def fcwhLoop (step : S → S) :
    Nat → Nat → S → List (S × Nat) → List S → Option (Nat × Nat × List S)
  | 0, _, _, _, _ => none
  | fuel + 1, i, st, seen, hist =>
    let st' := step st
    match lookup seen st' with
    | some cs => some (cs, i - cs, hist)
    | none => fcwhLoop step fuel (i + 1) st' ((st', i) :: seen) (hist ++ [st'])

/-- `find_cycle_with_history` from `analysis.py`: history-based detector.
The Python loop `for i in range(1, max_iterations)` performs
`max_iterations - 1` iterations. -/
def find_cycle_with_history (init : S) (step : S → S) (maxIter : Nat) :
    Option (Nat × Nat × List S) :=
  fcwhLoop step (maxIter - 1) 1 init [(init, 0)] [init]

/-- `get_state_at_iteration` from `analysis.py`.  The direct-simulation
fallback (`for _ in range(target_iteration): state = step(state)`) is
`stateAt`; Python list indexing, which raises on an out-of-range index,
is modelled by `List.get?` with `none` standing for the exception. -/
def get_state_at_iteration (init : S) (step : S → S)
    (target maxIter : Nat) : Option S :=
  match find_cycle_with_history init step maxIter with
  | none => some (stateAt step init target)
  | some (cs, cl, hist) =>
    if target < hist.length then hist.get? target
    else hist.get? (cs + (target - cs) % cl)

/-- The loop of `simulate_until_repeat`: identical bookkeeping to
`fcwhLoop` but returning `(i, state)` at the first repeat. -/
def surLoop (step : S → S) :
    Nat → Nat → S → List (S × Nat) → Option (Nat × S)
  | 0, _, _, _ => none
  | fuel + 1, i, st, seen =>
    let st' := step st
    match lookup seen st' with
    | some _ => some (i, st')
    | none => surLoop step fuel (i + 1) st' ((st', i) :: seen)

/-- `simulate_until_repeat` from `analysis.py`. -/
def simulate_until_repeat (init : S) (step : S → S) (maxIter : Nat) :
    Option (Nat × S) :=
  surLoop step (maxIter - 1) 1 init [(init, 0)]

/-- The loop of `detect_cycle_in_sequence`: enumerate the list with its
index, returning `(seen[state], i - seen[state])` at the first value
already in the seen map. -/
def dcisLoop : List (S × Nat) → Nat → List S → Option (Nat × Nat)
  | _, _, [] => none
  | seen, i, s :: rest =>
    match lookup seen s with
    | some j => some (j, i - j)
    | none => dcisLoop ((s, i) :: seen) (i + 1) rest

/-- `detect_cycle_in_sequence` from `analysis.py`. -/
def detect_cycle_in_sequence (sequence : List S) : Option (Nat × Nat) :=
  dcisLoop [] 0 sequence

/-- Suspended control state of the generator
`iterate_with_cycle_detection`, between two yields: either still inside
the bookkeeping `for` loop (with remaining fuel, current index, current
state and seen map), or inside the unbounded `while True` loop entered
after a repeat was detected. -/
inductive GenSt (S : Type) where
  | scan (fuel i : Nat) (st : S) (seen : List (S × Nat)) : GenSt S
  | cycle (i : Nat) (st : S) : GenSt S

/-- One resume of the generator: run until the next `yield` (returning
the yielded pair and the new suspended state) or until the generator
returns (`none`, i.e. `StopIteration`). -/
def genNext (step : S → S) : GenSt S → Option ((Nat × S) × GenSt S)
  | .scan 0 _ _ _ => none
  | .scan (fuel + 1) i st seen =>
    let st' := step st
    match lookup seen st' with
    | some _ => some ((i, st'), .cycle i st')
    | none => some ((i, st'), .scan fuel (i + 1) st' ((st', i) :: seen))
  | .cycle i st => some ((i + 1, step st), .cycle (i + 1) (step st))

/-- The pair produced by the `n`-th further pull of the generator from a
given suspended state (`none` when the generator has stopped by then). -/
def genRun (step : S → S) : GenSt S → Nat → Option (Nat × S)
  | g, 0 => (genNext step g).map (fun p => p.1)
  | g, n + 1 =>
    match genNext step g with
    | none => none
    | some (_, g') => genRun step g' n

/-- `iterate_with_cycle_detection` from `analysis.py`, modelled as the
function giving the `n`-th yielded `(iteration, state)` pair (`none`
when the generator has already stopped).  The first yield is
`(0, initial_state)`; afterwards the `for i in range(1, max_iterations)`
loop runs with the seen map seeded with the initial state. -/
def iterate_with_cycle_detection (init : S) (step : S → S) (maxIter : Nat) :
    Nat → Option (Nat × S)
  | 0 => some (0, init)
  | n + 1 => genRun step (GenSt.scan (maxIter - 1) 1 init [(init, 0)]) n

/-- The list `[state_at i, state_at (i+1), ..., state_at (i+k-1)]`. -/
def stateListFrom (step : S → S) (init : S) : Nat → Nat → List S
  | _, 0 => []
  | i, k + 1 => stateAt step init i :: stateListFrom step init (i + 1) k

/-- The materialized prefix `[state_at 0, ..., state_at (k-1)]` of the
state sequence. -/
def stateList (step : S → S) (init : S) (k : Nat) : List S :=
  stateListFrom step init 0 k

/-- The example transition of the `find_cycle` docstring, producing the
sequence `0, 1, 2, 3, 4, 2, 3, 4, ...`. -/
def exStep : Nat → Nat := fun x => if x < 4 then x + 1 else 2

/-- The transition `x ↦ (x + 1) % 3`, whose sequence from `0` is purely
periodic with period `3`. -/
def modStep3 : Nat → Nat := fun x => (x + 1) % 3

/-! ### Arithmetic of the state sequence -/

theorem stateAt_succ (step : S → S) (init : S) (n : Nat) :
    stateAt step init (n + 1) = step (stateAt step init n) := rfl

theorem stateAt_add (step : S → S) (init : S) (m n : Nat) :
    stateAt step init (m + n) = stateAt step (stateAt step init m) n := by
  induction n with
  | zero => rfl
  | succ n ih =>
    show step (stateAt step init (m + n)) = step (stateAt step (stateAt step init m) n)
    rw [ih]

theorem stateAt_shift (step : S → S) (init : S) {a b : Nat}
    (h : stateAt step init a = stateAt step init b) (t : Nat) :
    stateAt step init (a + t) = stateAt step init (b + t) := by
  rw [stateAt_add, stateAt_add, h]

/-- Determinism: a single coincidence `state_at a = state_at (a + L)`
propagates to every later index. -/
theorem period_ext (step : S → S) (init : S) {a L : Nat}
    (h : stateAt step init a = stateAt step init (a + L)) :
    ∀ i, a ≤ i → stateAt step init i = stateAt step init (i + L) := by
  intro i hi
  have h2 := stateAt_shift step init h (i - a)
  rw [(by omega : a + (i - a) = i), (by omega : a + L + (i - a) = i + L)] at h2
  exact h2

theorem period_mul (step : S → S) (init : S) {a L : Nat}
    (h : stateAt step init a = stateAt step init (a + L)) :
    ∀ k i, a ≤ i → stateAt step init i = stateAt step init (i + k * L) := by
  intro k
  induction k with
  | zero => intro i _; simp
  | succ k ih =>
    intro i hi
    have h1 := ih i hi
    have h2 := period_ext step init h (i + k * L) (by omega)
    have h3 : i + k * L + L = i + (k + 1) * L := by
      rw [Nat.succ_mul]; omega
    rw [h1, h2, h3]

/-! ### The minimal cycle-start / cycle-length pair -/

/-- Any eventual coincidence yields one at the minimal cycle start. -/
theorem mp_reduce (step : S → S) (init : S) (mu lam : Nat)
    (hlam : 0 < lam)
    (hper : stateAt step init mu = stateAt step init (mu + lam))
    {a L : Nat} (h : stateAt step init a = stateAt step init (a + L)) :
    stateAt step init mu = stateAt step init (mu + L) := by
  have h1 : stateAt step init mu = stateAt step init (mu + a * lam) :=
    period_mul step init hper a mu (Nat.le_refl mu)
  have ha : a ≤ mu + a * lam := by
    have h4 : a * 1 ≤ a * lam := Nat.mul_le_mul_left a hlam
    have h5 : a * 1 = a := Nat.mul_one a
    omega
  have h2 : stateAt step init (mu + a * lam) = stateAt step init (mu + a * lam + L) :=
    period_ext step init h (mu + a * lam) ha
  have h3 : stateAt step init (mu + L) = stateAt step init (mu + L + a * lam) :=
    period_mul step init hper a (mu + L) (by omega)
  rw [h1, h2, h3]; congr 1; omega

/-- The minimal cycle length divides every eventual period. -/
theorem mp_dvd (step : S → S) (init : S) (mu lam : Nat)
    (hlam : 0 < lam)
    (hper : stateAt step init mu = stateAt step init (mu + lam))
    (hlam_min : ∀ L, 0 < L →
      stateAt step init mu = stateAt step init (mu + L) → lam ≤ L)
    {a L : Nat} (hL : 0 < L)
    (h : stateAt step init a = stateAt step init (a + L)) : lam ∣ L := by
  have hred := mp_reduce step init mu lam hlam hper h
  have hdm : L / lam * lam + L % lam = L := Nat.div_add_mod' L lam
  have hmod : stateAt step init (mu + L % lam)
      = stateAt step init (mu + L % lam + L / lam * lam) :=
    period_mul step init hper (L / lam) (mu + L % lam) (by omega)
  have heq : stateAt step init (mu + L % lam) = stateAt step init (mu + L) := by
    rw [hmod]; congr 1; omega
  have hr : stateAt step init mu = stateAt step init (mu + L % lam) := by
    rw [heq]; exact hred
  by_cases h0 : L % lam = 0
  · exact Nat.dvd_of_mod_eq_zero h0
  · exfalso
    have h6 := hlam_min (L % lam) (Nat.pos_of_ne_zero h0) hr
    have h7 := Nat.mod_lt L hlam
    omega

theorem mp_le (step : S → S) (init : S) (mu lam : Nat)
    (hlam : 0 < lam)
    (hper : stateAt step init mu = stateAt step init (mu + lam))
    (hlam_min : ∀ L, 0 < L →
      stateAt step init mu = stateAt step init (mu + L) → lam ≤ L)
    {a L : Nat} (hL : 0 < L)
    (h : stateAt step init a = stateAt step init (a + L)) : lam ≤ L :=
  Nat.le_of_dvd hL (mp_dvd step init mu lam hlam hper hlam_min hL h)

/-- The state sequence is injective below `mu + lam`. -/
theorem mp_inj (step : S → S) (init : S) (mu lam : Nat)
    (hlam : 0 < lam)
    (hper : stateAt step init mu = stateAt step init (mu + lam))
    (hmu_min : ∀ a L, 0 < L →
      stateAt step init a = stateAt step init (a + L) → mu ≤ a)
    (hlam_min : ∀ L, 0 < L →
      stateAt step init mu = stateAt step init (mu + L) → lam ≤ L) :
    ∀ a b, a < b → b < mu + lam → stateAt step init a ≠ stateAt step init b := by
  intro a b hab hb h
  have hp : stateAt step init a = stateAt step init (a + (b - a)) := by
    rw [(by omega : a + (b - a) = b)]; exact h
  have h1 : mu ≤ a := hmu_min a (b - a) (by omega) hp
  have h2 : lam ≤ b - a :=
    mp_le step init mu lam hlam hper hlam_min (by omega) hp
  omega

/-- A first repeat (injective prefix plus one coincidence) identifies the
minimal pair: the repeated index is `mu` and the repeat happens at
`mu + lam`. -/
theorem mp_repeat_eq (step : S → S) (init : S) (mu lam : Nat)
    (hlam : 0 < lam)
    (hper : stateAt step init mu = stateAt step init (mu + lam))
    (hmu_min : ∀ a L, 0 < L →
      stateAt step init a = stateAt step init (a + L) → mu ≤ a)
    (hlam_min : ∀ L, 0 < L →
      stateAt step init mu = stateAt step init (mu + L) → lam ≤ L)
    {cs r : Nat} (hcs : cs < r)
    (heq : stateAt step init cs = stateAt step init r)
    (hinj : ∀ a b, a < b → b < r → stateAt step init a ≠ stateAt step init b) :
    cs = mu ∧ r = mu + lam := by
  have hp : stateAt step init cs = stateAt step init (cs + (r - cs)) := by
    rw [(by omega : cs + (r - cs) = r)]; exact heq
  have h1 : mu ≤ cs := hmu_min cs (r - cs) (by omega) hp
  have h2 : lam ≤ r - cs :=
    mp_le step init mu lam hlam hper hlam_min (by omega) hp
  have h3 : ¬ (mu + lam < r) := fun hlt => hinj mu (mu + lam) (by omega) hlt hper
  omega

/-- Existence of the minimal cycle-start / cycle-length pair, given any
eventual coincidence in the state sequence. -/
theorem exists_minPair (step : S → S) (init : S)
    (hex : ∃ a L, 0 < L ∧ stateAt step init a = stateAt step init (a + L)) :
    ∃ mu lam, 0 < lam ∧ stateAt step init mu = stateAt step init (mu + lam) ∧
      (∀ a L, 0 < L →
        stateAt step init a = stateAt step init (a + L) → mu ≤ a) ∧
      (∀ L, 0 < L →
        stateAt step init mu = stateAt step init (mu + L) → lam ≤ L) := by
  classical
  obtain ⟨a0, L0, hL0, h0⟩ := hex
  have hPex : ∃ a, ∃ L, 0 < L ∧ stateAt step init a = stateAt step init (a + L) :=
    ⟨a0, L0, hL0, h0⟩
  obtain ⟨L1, hL1, h1⟩ := Nat.find_spec hPex
  have hQex : ∃ L, 0 < L ∧
      stateAt step init (Nat.find hPex) = stateAt step init (Nat.find hPex + L) :=
    ⟨L1, hL1, h1⟩
  refine ⟨Nat.find hPex, Nat.find hQex, (Nat.find_spec hQex).1,
    (Nat.find_spec hQex).2, ?_, ?_⟩
  · intro a L hL h
    exact Nat.find_min' hPex ⟨L, hL, h⟩
  · intro L hL h
    exact Nat.find_min' hQex ⟨hL, h⟩

/-- A first repeat index is unique: two indices each preceded by an
injective prefix and each equal to some earlier state coincide. -/
theorem firstRepeat_unique (g : Nat → S) {r1 r2 : Nat}
    (h1 : ∃ j, j < r1 ∧ g j = g r1)
    (i1 : ∀ a b, a < b → b < r1 → g a ≠ g b)
    (h2 : ∃ j, j < r2 ∧ g j = g r2)
    (i2 : ∀ a b, a < b → b < r2 → g a ≠ g b) : r1 = r2 := by
  rcases Nat.lt_trichotomy r1 r2 with h | h | h
  · obtain ⟨j, hj, he⟩ := h1
    exact absurd he (i2 j r1 hj h)
  · exact h
  · obtain ⟨j, hj, he⟩ := h2
    exact absurd he (i1 j r2 hj h)

/-! ### Correctness of the three Floyd phases -/

/-- If phase 1, started with `slow = state_at k` and `fast = state_at (2k)`,
breaks with meeting value `m`, then some round `j` has
`state_at j = state_at (2j)` and `m` is that common value. -/
theorem floydPhase1_spec (step : S → S) (init : S) :
    ∀ n k m,
      floydPhase1 step (stateAt step init k) (stateAt step init (2 * k)) n = some m →
      ∃ j, k < j ∧ j ≤ k + n ∧
        stateAt step init j = stateAt step init (2 * j) ∧
        m = stateAt step init (2 * j) := by
  intro n
  induction n with
  | zero => intro k m h; simp [floydPhase1] at h
  | succ n ih =>
    intro k m h
    simp only [floydPhase1] at h
    split at h
    · rename_i heq
      refine ⟨k + 1, by omega, by omega, heq, (Option.some.inj h).symm⟩
    · obtain ⟨j, h1, h2, h3, h4⟩ := ih (k + 1) m h
      exact ⟨j, by omega, by omega, h3, h4⟩

/-- Phase 2, started from index `c` with the two cursors a fixed distance
`d` apart along the sequence, returns the first index `cs ≥ c` with
`state_at cs = state_at (cs + d)`, together with that state. -/
theorem floydPhase2_spec (step : S → S) (init : S) (d : Nat) :
    ∀ fuel c cs s,
      floydPhase2 step fuel (stateAt step init c) (stateAt step init (c + d)) c
        = some (cs, s) →
      c ≤ cs ∧ s = stateAt step init cs ∧
        stateAt step init cs = stateAt step init (cs + d) ∧
        ∀ e, c ≤ e → e < cs →
          stateAt step init e ≠ stateAt step init (e + d) := by
  intro fuel
  induction fuel with
  | zero =>
    intro c cs s h
    simp only [floydPhase2] at h
    split at h
    · rename_i heq
      simp only [Option.some.injEq, Prod.mk.injEq] at h
      obtain ⟨h1, h2⟩ := h
      subst h1
      exact ⟨Nat.le_refl c, h2.symm, heq, fun e he1 he2 => absurd he1 (by omega)⟩
    · exact absurd h (by simp)
  | succ fuel ih =>
    intro c cs s h
    simp only [floydPhase2] at h
    split at h
    · rename_i heq
      simp only [Option.some.injEq, Prod.mk.injEq] at h
      obtain ⟨h1, h2⟩ := h
      subst h1
      exact ⟨Nat.le_refl c, h2.symm, heq, fun e he1 he2 => absurd he1 (by omega)⟩
    · rename_i hne
      have h' : floydPhase2 step fuel (stateAt step init (c + 1))
          (stateAt step init ((c + 1) + d)) (c + 1) = some (cs, s) := by
        rw [(by omega : (c + 1) + d = (c + d) + 1)]
        exact h
      obtain ⟨h1, h2, h3, h4⟩ := ih (c + 1) cs s h'
      refine ⟨by omega, h2, h3, ?_⟩
      intro e he1 he2
      rcases Nat.eq_or_lt_of_le he1 with rfl | hlt
      · exact hne
      · exact h4 e hlt he2

/-- Phase 3, with `slow` fixed at `state_at cs` and the cursor at
`state_at (cs + t)` with counter `t`, returns the first `cl ≥ t` with
`state_at (cs + cl) = state_at cs`. -/
theorem floydPhase3_spec (step : S → S) (init : S) (cs : Nat) :
    ∀ fuel t cl,
      floydPhase3 step (stateAt step init cs) fuel (stateAt step init (cs + t)) t
        = some cl →
      t ≤ cl ∧ stateAt step init (cs + cl) = stateAt step init cs ∧
        ∀ u, t ≤ u → u < cl →
          stateAt step init (cs + u) ≠ stateAt step init cs := by
  intro fuel
  induction fuel with
  | zero =>
    intro t cl h
    simp only [floydPhase3] at h
    split at h
    · rename_i heq
      have h1 := Option.some.inj h
      subst h1
      exact ⟨Nat.le_refl t, heq.symm, fun u hu1 hu2 => absurd hu1 (by omega)⟩
    · exact absurd h (by simp)
  | succ fuel ih =>
    intro t cl h
    simp only [floydPhase3] at h
    split at h
    · rename_i heq
      have h1 := Option.some.inj h
      subst h1
      exact ⟨Nat.le_refl t, heq.symm, fun u hu1 hu2 => absurd hu1 (by omega)⟩
    · rename_i hne
      obtain ⟨h1, h2, h3⟩ := ih (t + 1) cl h
      refine ⟨by omega, h2, ?_⟩
      intro u hu1 hu2
      rcases Nat.eq_or_lt_of_le hu1 with rfl | hlt
      · exact fun he => hne he.symm
      · exact h3 u hlt hu2

/-- When `find_cycle` returns `(cs, cl, rep)`, the pair `(cs, cl)` is the
minimal cycle-start / cycle-length pair of the state sequence and
`rep = state_at cs`. -/
theorem find_cycle_some_min (init : S) (step : S → S) (maxIter fuel : Nat)
    {cs cl : Nat} {rep : S}
    (h : find_cycle init step maxIter fuel = some (cs, cl, rep)) :
    0 < cl ∧ rep = stateAt step init cs ∧
      stateAt step init cs = stateAt step init (cs + cl) ∧
      (∀ a L, 0 < L →
        stateAt step init a = stateAt step init (a + L) → cs ≤ a) ∧
      (∀ L, 0 < L →
        stateAt step init cs = stateAt step init (cs + L) → cl ≤ L) := by
  unfold find_cycle at h
  cases h1 : floydPhase1 step init init maxIter with
  | none => simp [h1] at h
  | some meet =>
  simp only [h1] at h
  cases h2 : floydPhase2 step fuel init meet 0 with
  | none => simp [h1, h2] at h
  | some p =>
  obtain ⟨cs', s⟩ := p
  simp only [h2] at h
  cases h3 : floydPhase3 step s fuel (step s) 1 with
  | none => simp [h1, h2, h3] at h
  | some cl' =>
  simp only [h3] at h
  simp only [Option.some.injEq, Prod.mk.injEq] at h
  obtain ⟨hcs, hcl, hrep⟩ := h
  subst hcs; subst hcl; subst hrep
  -- phase 1: a meeting round j with state_at j = state_at (2j)
  have h1' : floydPhase1 step (stateAt step init 0) (stateAt step init (2 * 0))
      maxIter = some meet := h1
  obtain ⟨j, hj0, _, hjeq, hmeet⟩ := floydPhase1_spec step init maxIter 0 meet h1'
  have hjeq' : stateAt step init j = stateAt step init (j + j) := by
    rw [(by omega : j + j = 2 * j)]; exact hjeq
  have hex : ∃ a L, 0 < L ∧ stateAt step init a = stateAt step init (a + L) :=
    ⟨j, j, by omega, hjeq'⟩
  obtain ⟨mu, lam, hlam, hper, hmu_min, hlam_min⟩ := exists_minPair step init hex
  have hdj : lam ∣ j :=
    mp_dvd step init mu lam hlam hper hlam_min (by omega) hjeq'
  -- phase 2 finds the first index at distance 2j
  have h2' : floydPhase2 step fuel (stateAt step init 0)
      (stateAt step init (0 + 2 * j)) 0 = some (cs', s) := by
    rw [(by omega : 0 + 2 * j = 2 * j), ← hmeet]
    exact h2
  obtain ⟨_, hs, hcseq, hcsmin⟩ := floydPhase2_spec step init (2 * j) fuel 0 cs' s h2'
  have hcmu : mu ≤ cs' := hmu_min cs' (2 * j) (by omega) hcseq
  have hmuc : ¬ (mu < cs') := by
    intro hlt
    apply hcsmin mu (Nat.zero_le mu) hlt
    obtain ⟨q, hq⟩ := hdj
    have hmul : stateAt step init mu = stateAt step init (mu + 2 * q * lam) :=
      period_mul step init hper (2 * q) mu (Nat.le_refl mu)
    have e : mu + 2 * q * lam = mu + 2 * j := by rw [hq]; ring
    rw [e] at hmul
    exact hmul
  have hcsm : cs' = mu := by omega
  -- phase 3 finds the first return to state_at cs'
  subst hs
  have h3' : floydPhase3 step (stateAt step init cs') fuel
      (stateAt step init (cs' + 1)) 1 = some cl' := h3
  obtain ⟨hcl1, hcleq, hclmin⟩ := floydPhase3_spec step init cs' fuel 1 cl' h3'
  have hl1 : lam ≤ cl' := by
    apply hlam_min cl' (by omega)
    rw [← hcsm]
    exact hcleq.symm
  have hl2 : ¬ (lam < cl') := by
    intro hlt
    apply hclmin lam (by omega) hlt
    rw [hcsm]
    exact hper.symm
  have hcll : cl' = lam := by omega
  refine ⟨by omega, rfl, hcleq.symm, ?_, ?_⟩
  · intro a L hL ha
    rw [hcsm]
    exact hmu_min a L hL ha
  · intro L hL hLeq
    rw [hcll]
    apply hlam_min L hL
    rw [← hcsm]
    exact hLeq

/-! ### The materialized state prefix -/

theorem stateListFrom_length (step : S → S) (init : S) :
    ∀ k i, (stateListFrom step init i k).length = k := by
  intro k
  induction k with
  | zero => intro i; rfl
  | succ k ih =>
    intro i
    show (stateListFrom step init (i + 1) k).length + 1 = k + 1
    rw [ih]

theorem stateListFrom_snoc (step : S → S) (init : S) :
    ∀ k i, stateListFrom step init i (k + 1)
      = stateListFrom step init i k ++ [stateAt step init (i + k)] := by
  intro k
  induction k with
  | zero => intro i; simp [stateListFrom]
  | succ k ih =>
    intro i
    show stateAt step init i :: stateListFrom step init (i + 1) (k + 1)
        = (stateAt step init i :: stateListFrom step init (i + 1) k)
          ++ [stateAt step init (i + (k + 1))]
    rw [ih (i + 1), (by omega : i + (k + 1) = (i + 1) + k), List.cons_append]

theorem stateListFrom_get (step : S → S) (init : S) :
    ∀ k i t, t < k →
      (stateListFrom step init i k).get? t = some (stateAt step init (i + t)) := by
  intro k
  induction k with
  | zero => intro i t ht; omega
  | succ k ih =>
    intro i t ht
    cases t with
    | zero => simp [stateListFrom]
    | succ t =>
      show (stateListFrom step init (i + 1) k).get? t = _
      rw [ih (i + 1) t (by omega), (by omega : i + (t + 1) = (i + 1) + t)]

theorem stateList_length (step : S → S) (init : S) (k : Nat) :
    (stateList step init k).length = k := stateListFrom_length step init k 0

theorem stateList_get (step : S → S) (init : S) {k t : Nat} (ht : t < k) :
    (stateList step init k).get? t = some (stateAt step init t) := by
  rw [stateList, stateListFrom_get step init k 0 t ht, Nat.zero_add]

/-! ### Characterization of the history-detector loop -/

/-- When the loop of `find_cycle_with_history`, entered at iteration
`p + 1` with the invariants of the seen map and the history list,
returns `(cs, cl, h)`, the return happened at the first repeat index `r`
of the state sequence, with `cs` the earlier index of the repeated
state, `cl = r - cs`, and `h` the materialized prefix of length `r`. -/
theorem fcwhLoop_some_char (step : S → S) (init : S) :
    ∀ fuel p seen hist cs cl h,
      (∀ j, j < p + 1 → lookup seen (stateAt step init j) = some j) →
      (∀ s j, lookup seen s = some j → j < p + 1 ∧ stateAt step init j = s) →
      hist = stateList step init (p + 1) →
      (∀ a b, a < b → b < p + 1 → stateAt step init a ≠ stateAt step init b) →
      fcwhLoop step fuel (p + 1) (stateAt step init p) seen hist = some (cs, cl, h) →
      ∃ r, p + 1 ≤ r ∧ r < p + 1 + fuel ∧ cs < r ∧ cl = r - cs ∧
        stateAt step init cs = stateAt step init r ∧
        h = stateList step init r ∧
        (∀ a b, a < b → b < r → stateAt step init a ≠ stateAt step init b) := by
  intro fuel
  induction fuel with
  | zero => intro p seen hist cs cl h _ _ _ _ hrun; simp [fcwhLoop] at hrun
  | succ fuel ih =>
    intro p seen hist cs cl h hcomp hsound hhist hinj hrun
    simp only [fcwhLoop] at hrun
    cases hlk : lookup seen (step (stateAt step init p)) with
    | some j =>
      simp only [hlk, Option.some.injEq, Prod.mk.injEq] at hrun
      obtain ⟨hc1, hc2, hc3⟩ := hrun
      obtain ⟨hj1, hj2⟩ := hsound _ j hlk
      refine ⟨p + 1, Nat.le_refl _, by omega, by omega, by omega, ?_, ?_, hinj⟩
      · rw [← hc1]; exact hj2
      · rw [← hc3, hhist]
    | none =>
      simp only [hlk] at hrun
      have hnotin : ∀ j, j < p + 1 →
          stateAt step init j ≠ stateAt step init (p + 1) := by
        intro j hj he
        have h2 := hcomp j hj
        rw [he] at h2
        have h3 : lookup seen (step (stateAt step init p)) = some j := h2
        rw [hlk] at h3
        exact absurd h3 (by simp)
      have hcomp' : ∀ j, j < (p + 1) + 1 →
          lookup ((step (stateAt step init p), p + 1) :: seen)
            (stateAt step init j) = some j := by
        intro j hj
        rcases Nat.lt_or_ge j (p + 1) with hlt | hge
        · have hne : step (stateAt step init p) ≠ stateAt step init j := by
            intro he
            exact hnotin j hlt (by exact he.symm)
          simp only [lookup]
          rw [if_neg hne]
          exact hcomp j hlt
        · have hj' : j = p + 1 := by omega
          subst hj'
          simp only [lookup]
          rw [if_pos (show step (stateAt step init p) = stateAt step init (p + 1) from rfl)]
      have hsound' : ∀ s j,
          lookup ((step (stateAt step init p), p + 1) :: seen) s = some j →
          j < (p + 1) + 1 ∧ stateAt step init j = s := by
        intro s j hl
        simp only [lookup] at hl
        split at hl
        · rename_i heq
          have hj := Option.some.inj hl
          subst hj
          exact ⟨by omega, heq⟩
        · obtain ⟨h1, h2⟩ := hsound s j hl
          exact ⟨by omega, h2⟩
      have hhist' : hist ++ [step (stateAt step init p)]
          = stateList step init ((p + 1) + 1) := by
        rw [hhist]
        show stateList step init (p + 1) ++ [step (stateAt step init p)]
            = stateList step init ((p + 1) + 1)
        unfold stateList
        rw [stateListFrom_snoc step init (p + 1) 0, Nat.zero_add]
        rfl
      have hinj' : ∀ a b, a < b → b < (p + 1) + 1 →
          stateAt step init a ≠ stateAt step init b := by
        intro a b hab hb
        rcases Nat.lt_or_ge b (p + 1) with hlt | hge
        · exact hinj a b hab hlt
        · have hb' : b = p + 1 := by omega
          subst hb'
          exact hnotin a (by omega)
      have hrun' : fcwhLoop step fuel ((p + 1) + 1) (stateAt step init (p + 1))
          ((step (stateAt step init p), p + 1) :: seen)
          (hist ++ [step (stateAt step init p)]) = some (cs, cl, h) := hrun
      obtain ⟨r, hr1, hr2, hr3, hr4, hr5, hr6, hr7⟩ :=
        ih (p + 1) _ _ cs cl h hcomp' hsound' hhist' hinj' hrun'
      exact ⟨r, by omega, by omega, hr3, hr4, hr5, hr6, hr7⟩

/-- When the loop of `find_cycle_with_history` returns `none`, no
iteration it examined was a repeat of an earlier state. -/
theorem fcwhLoop_none_char (step : S → S) (init : S) :
    ∀ fuel p seen hist,
      (∀ j, j < p + 1 → lookup seen (stateAt step init j) = some j) →
      (∀ s j, lookup seen s = some j → j < p + 1 ∧ stateAt step init j = s) →
      fcwhLoop step fuel (p + 1) (stateAt step init p) seen hist = none →
      ∀ r, p + 1 ≤ r → r < p + 1 + fuel →
        ∀ j, j < r → stateAt step init j ≠ stateAt step init r := by
  intro fuel
  induction fuel with
  | zero => intro p seen hist _ _ _ r hr1 hr2; omega
  | succ fuel ih =>
    intro p seen hist hcomp hsound hrun
    simp only [fcwhLoop] at hrun
    cases hlk : lookup seen (step (stateAt step init p)) with
    | some j => simp [hlk] at hrun
    | none =>
      simp only [hlk] at hrun
      have hnotin : ∀ j, j < p + 1 →
          stateAt step init j ≠ stateAt step init (p + 1) := by
        intro j hj he
        have h2 := hcomp j hj
        rw [he] at h2
        have h3 : lookup seen (step (stateAt step init p)) = some j := h2
        rw [hlk] at h3
        exact absurd h3 (by simp)
      have hcomp' : ∀ j, j < (p + 1) + 1 →
          lookup ((step (stateAt step init p), p + 1) :: seen)
            (stateAt step init j) = some j := by
        intro j hj
        rcases Nat.lt_or_ge j (p + 1) with hlt | hge
        · have hne : step (stateAt step init p) ≠ stateAt step init j := by
            intro he
            exact hnotin j hlt (by exact he.symm)
          simp only [lookup]
          rw [if_neg hne]
          exact hcomp j hlt
        · have hj' : j = p + 1 := by omega
          subst hj'
          simp only [lookup]
          rw [if_pos (show step (stateAt step init p) = stateAt step init (p + 1) from rfl)]
      have hsound' : ∀ s j,
          lookup ((step (stateAt step init p), p + 1) :: seen) s = some j →
          j < (p + 1) + 1 ∧ stateAt step init j = s := by
        intro s j hl
        simp only [lookup] at hl
        split at hl
        · rename_i heq
          have hj := Option.some.inj hl
          subst hj
          exact ⟨by omega, heq⟩
        · obtain ⟨h1, h2⟩ := hsound s j hl
          exact ⟨by omega, h2⟩
      have hrun' : fcwhLoop step fuel ((p + 1) + 1) (stateAt step init (p + 1))
          ((step (stateAt step init p), p + 1) :: seen)
          (hist ++ [step (stateAt step init p)]) = none := hrun
      intro r hr1 hr2 j hj
      rcases Nat.lt_or_ge r (p + 1 + 1) with hlt | hge
      · have hr' : r = p + 1 := by omega
        subst hr'
        exact hnotin j hj
      · exact ih (p + 1) _ _ hcomp' hsound' hrun' r hge (by omega) j hj

/-- Completeness of the seed seen-map `{initial_state: 0}`. -/
theorem seed_comp (init : S) (step : S → S) :
    ∀ j, j < 0 + 1 → lookup [(init, 0)] (stateAt step init j) = some j := by
  intro j hj
  have hj0 : j = 0 := by omega
  subst hj0
  simp [lookup, stateAt]

/-- Soundness of the seed seen-map `{initial_state: 0}`. -/
theorem seed_sound (init : S) (step : S → S) :
    ∀ s j, lookup [(init, 0)] s = some j → j < 0 + 1 ∧ stateAt step init j = s := by
  intro s j hl
  simp only [lookup] at hl
  split at hl
  · rename_i heq
    have hj := Option.some.inj hl
    subst hj
    exact ⟨by omega, heq⟩
  · exact absurd hl (by simp)

/-- When `find_cycle_with_history` returns `(cs, cl, h)`: the repeat
happened at iteration `cs + cl < max_iterations`, `state_at cs` is the
repeated state, `h` is the materialized prefix of length `cs + cl`, and
the states before the repeat are pairwise distinct. -/
theorem fcwh_some_char (init : S) (step : S → S) (maxIter : Nat)
    {cs cl : Nat} {h : List S}
    (hfc : find_cycle_with_history init step maxIter = some (cs, cl, h)) :
    cs + cl < maxIter ∧ 0 < cl ∧
      stateAt step init cs = stateAt step init (cs + cl) ∧
      h = stateList step init (cs + cl) ∧
      (∀ a b, a < b → b < cs + cl →
        stateAt step init a ≠ stateAt step init b) := by
  have hhist : [init] = stateList step init (0 + 1) := rfl
  have hinj : ∀ a b, a < b → b < 0 + 1 →
      stateAt step init a ≠ stateAt step init b := by
    intro a b h1 h2; omega
  have hrun : fcwhLoop step (maxIter - 1) (0 + 1) (stateAt step init 0)
      [(init, 0)] [init] = some (cs, cl, h) := hfc
  obtain ⟨r, hr1, hr2, hr3, hr4, hr5, hr6, hr7⟩ :=
    fcwhLoop_some_char step init (maxIter - 1) 0 [(init, 0)] [init] cs cl h
      (seed_comp init step) (seed_sound init step) hhist hinj hrun
  have hrcs : r = cs + cl := by omega
  subst hrcs
  exact ⟨by omega, by omega, hr5, hr6, hr7⟩

/-- When `find_cycle_with_history` returns `none`, no iteration
`r ∈ [1, max_iterations)` repeats an earlier state. -/
theorem fcwh_none_char (init : S) (step : S → S) (maxIter : Nat)
    (hfc : find_cycle_with_history init step maxIter = none) :
    ∀ r, 0 < r → r < maxIter → ∀ j, j < r →
      stateAt step init j ≠ stateAt step init r := by
  have hrun : fcwhLoop step (maxIter - 1) (0 + 1) (stateAt step init 0)
      [(init, 0)] [init] = none := hfc
  intro r hr1 hr2 j hj
  exact fcwhLoop_none_char step init (maxIter - 1) 0 [(init, 0)] [init]
    (seed_comp init step) (seed_sound init step) hrun r (by omega) (by omega) j hj

/-- Invariant characterization of the `simulate_until_repeat` loop: a
`some (it, s)` return happens at the first repeat index. -/
theorem surLoop_some_char (step : S → S) (init : S) :
    ∀ fuel p seen it s,
      (∀ j, j < p + 1 → lookup seen (stateAt step init j) = some j) →
      (∀ s2 j, lookup seen s2 = some j → j < p + 1 ∧ stateAt step init j = s2) →
      (∀ a b, a < b → b < p + 1 → stateAt step init a ≠ stateAt step init b) →
      surLoop step fuel (p + 1) (stateAt step init p) seen = some (it, s) →
      p + 1 ≤ it ∧ it < p + 1 + fuel ∧ s = stateAt step init it ∧
        (∃ j, j < it ∧ stateAt step init j = stateAt step init it) ∧
        (∀ a b, a < b → b < it → stateAt step init a ≠ stateAt step init b) := by
  intro fuel
  induction fuel with
  | zero => intro p seen it s _ _ _ hrun; simp [surLoop] at hrun
  | succ fuel ih =>
    intro p seen it s hcomp hsound hinj hrun
    simp only [surLoop] at hrun
    cases hlk : lookup seen (step (stateAt step init p)) with
    | some j =>
      simp only [hlk, Option.some.injEq, Prod.mk.injEq] at hrun
      obtain ⟨hc1, hc2⟩ := hrun
      obtain ⟨hj1, hj2⟩ := hsound _ j hlk
      subst hc1
      refine ⟨Nat.le_refl _, by omega, hc2.symm, ⟨j, hj1, hj2⟩, hinj⟩
    | none =>
      simp only [hlk] at hrun
      have hnotin : ∀ j, j < p + 1 →
          stateAt step init j ≠ stateAt step init (p + 1) := by
        intro j hj he
        have h2 := hcomp j hj
        rw [he] at h2
        have h3 : lookup seen (step (stateAt step init p)) = some j := h2
        rw [hlk] at h3
        exact absurd h3 (by simp)
      have hcomp' : ∀ j, j < (p + 1) + 1 →
          lookup ((step (stateAt step init p), p + 1) :: seen)
            (stateAt step init j) = some j := by
        intro j hj
        rcases Nat.lt_or_ge j (p + 1) with hlt | hge
        · have hne : step (stateAt step init p) ≠ stateAt step init j := by
            intro he
            exact hnotin j hlt (by exact he.symm)
          simp only [lookup]
          rw [if_neg hne]
          exact hcomp j hlt
        · have hj' : j = p + 1 := by omega
          subst hj'
          simp only [lookup]
          rw [if_pos (show step (stateAt step init p) = stateAt step init (p + 1) from rfl)]
      have hsound' : ∀ s2 j,
          lookup ((step (stateAt step init p), p + 1) :: seen) s2 = some j →
          j < (p + 1) + 1 ∧ stateAt step init j = s2 := by
        intro s2 j hl
        simp only [lookup] at hl
        split at hl
        · rename_i heq
          have hj := Option.some.inj hl
          subst hj
          exact ⟨by omega, heq⟩
        · obtain ⟨h1, h2⟩ := hsound s2 j hl
          exact ⟨by omega, h2⟩
      have hinj' : ∀ a b, a < b → b < (p + 1) + 1 →
          stateAt step init a ≠ stateAt step init b := by
        intro a b hab hb
        rcases Nat.lt_or_ge b (p + 1) with hlt | hge
        · exact hinj a b hab hlt
        · have hb' : b = p + 1 := by omega
          subst hb'
          exact hnotin a (by omega)
      have hrun' : surLoop step fuel ((p + 1) + 1) (stateAt step init (p + 1))
          ((step (stateAt step init p), p + 1) :: seen) = some (it, s) := hrun
      obtain ⟨hr1, hr2, hr3, hr4, hr5⟩ :=
        ih (p + 1) _ it s hcomp' hsound' hinj' hrun'
      exact ⟨by omega, by omega, hr3, hr4, hr5⟩

/-- When `simulate_until_repeat` returns `(it, s)`: `it` is the first
repeat index, `it < max_iterations`, and `s = state_at it` equals some
earlier state. -/
theorem sur_some_char (init : S) (step : S → S) (maxIter : Nat)
    {it : Nat} {s : S}
    (hs : simulate_until_repeat init step maxIter = some (it, s)) :
    0 < it ∧ it < maxIter ∧ s = stateAt step init it ∧
      (∃ j, j < it ∧ stateAt step init j = stateAt step init it) ∧
      (∀ a b, a < b → b < it → stateAt step init a ≠ stateAt step init b) := by
  have hinj : ∀ a b, a < b → b < 0 + 1 →
      stateAt step init a ≠ stateAt step init b := by
    intro a b h1 h2; omega
  have hrun : surLoop step (maxIter - 1) (0 + 1) (stateAt step init 0)
      [(init, 0)] = some (it, s) := hs
  obtain ⟨hr1, hr2, hr3, hr4, hr5⟩ :=
    surLoop_some_char step init (maxIter - 1) 0 [(init, 0)] it s
      (seed_comp init step) (seed_sound init step) hinj hrun
  exact ⟨by omega, by omega, hr3, hr4, hr5⟩

/-! ### Claim theorems -/

/-- Claim C1: whenever `find_cycle` returns `(cycle_start, cycle_length,
representative_state)`, the representative equals `state_at cycle_start`;
`cycle_length` is the smallest `L > 0` with `state_at i = state_at (i+L)`
for all `i ≥ cycle_start`; `cycle_start` is the smallest index with that
property for the detected period; and applying `step` `cycle_length`
times to the representative returns it. -/
theorem find_cycle_floyd_correct (init : S) (step : S → S)
    (maxIter fuel cs cl : Nat) (rep : S)
    (h : find_cycle init step maxIter fuel = some (cs, cl, rep)) :
    rep = stateAt step init cs ∧ 0 < cl ∧
      (∀ i, cs ≤ i → stateAt step init i = stateAt step init (i + cl)) ∧
      (∀ L, 0 < L →
        (∀ i, cs ≤ i → stateAt step init i = stateAt step init (i + L)) →
        cl ≤ L) ∧
      (∀ m, (∀ i, m ≤ i → stateAt step init i = stateAt step init (i + cl)) →
        cs ≤ m) ∧
      stateAt step rep cl = rep := by
  obtain ⟨h1, h2, h3, h4, h5⟩ := find_cycle_some_min init step maxIter fuel h
  refine ⟨h2, h1, period_ext step init h3, ?_, ?_, ?_⟩
  · intro L hL hall
    exact h5 L hL (hall cs (Nat.le_refl cs))
  · intro m hall
    exact h4 m cl h1 (hall m (Nat.le_refl m))
  · have e := stateAt_add step init cs cl
    rw [← h3] at e
    rw [h2]
    exact e.symm

theorem find_cycle_floyd_correct_witness :
    find_cycle 0 exStep 10 10 = some (2, 3, 2) ∧
      (2 : Nat) = stateAt exStep 0 2 ∧ stateAt exStep 2 3 = 2 := by
  have h : find_cycle 0 exStep 10 10 = some (2, 3, 2) := by decide
  have h2 := find_cycle_floyd_correct 0 exStep 10 10 2 3 2 h
  exact ⟨h, h2.1, h2.2.2.2.2.2⟩

/-- Claim C2: for every initial state, step function, target iteration
and detection bound, `get_state_at_iteration` produces exactly the state
obtained by applying `step` `target_iteration` times to the initial
state (in particular it never hits an out-of-range history index). -/
theorem get_state_at_iteration_consistent (init : S) (step : S → S)
    (target maxIter : Nat) :
    get_state_at_iteration init step target maxIter
      = some (stateAt step init target) := by
  unfold get_state_at_iteration
  cases hfc : find_cycle_with_history init step maxIter with
  | none => rfl
  | some p =>
    obtain ⟨cs, cl, h⟩ := p
    obtain ⟨hb, hcl, heq, hh, hinj⟩ := fcwh_some_char init step maxIter hfc
    subst hh
    show (if target < (stateList step init (cs + cl)).length
        then (stateList step init (cs + cl)).get? target
        else (stateList step init (cs + cl)).get? (cs + (target - cs) % cl))
      = some (stateAt step init target)
    by_cases ht : target < (stateList step init (cs + cl)).length
    · rw [if_pos ht]
      have ht' : target < cs + cl := by
        rw [stateList_length] at ht; exact ht
      exact stateList_get step init ht'
    · rw [if_neg ht]
      have hlen : (stateList step init (cs + cl)).length = cs + cl :=
        stateList_length step init _
      have ht' : cs + cl ≤ target := by rw [hlen] at ht; omega
      have hidx : cs + (target - cs) % cl < cs + cl := by
        have := Nat.mod_lt (target - cs) hcl
        omega
      rw [stateList_get step init hidx]
      have hq : (target - cs) / cl * cl + (target - cs) % cl = target - cs :=
        Nat.div_add_mod' (target - cs) cl
      have hper : stateAt step init (cs + (target - cs) % cl)
          = stateAt step init
            ((cs + (target - cs) % cl) + (target - cs) / cl * cl) :=
        period_mul step init heq ((target - cs) / cl)
          (cs + (target - cs) % cl) (by omega)
      rw [hper]
      congr 2
      omega

/-- Claim C3: whenever `find_cycle` and `find_cycle_with_history` both
report a cycle for the same `(initial_state, step)` pair (with any
bounds making both succeed), their `cycle_start` and `cycle_length`
components coincide. -/
theorem detectors_agree (init : S) (step : S → S)
    (mi1 fuel mi2 cs1 cl1 : Nat) (rep : S) (cs2 cl2 : Nat) (hist : List S)
    (h1 : find_cycle init step mi1 fuel = some (cs1, cl1, rep))
    (h2 : find_cycle_with_history init step mi2 = some (cs2, cl2, hist)) :
    cs1 = cs2 ∧ cl1 = cl2 := by
  obtain ⟨hcl1, hrep, heq1, hmu_min, hlam_min⟩ :=
    find_cycle_some_min init step mi1 fuel h1
  obtain ⟨hb, hcl2, heq2, hh, hinj⟩ := fcwh_some_char init step mi2 h2
  obtain ⟨e1, e2⟩ :=
    mp_repeat_eq step init cs1 cl1 hcl1 heq1 hmu_min hlam_min
      (show cs2 < cs2 + cl2 by omega) heq2 hinj
  constructor <;> omega

theorem detectors_agree_witness :
    find_cycle 0 exStep 10 10 = some (2, 3, 2) ∧
      find_cycle_with_history 0 exStep 10 = some (2, 3, [0, 1, 2, 3, 4]) ∧
      (2 : Nat) = 2 ∧ (3 : Nat) = 3 := by
  have h1 : find_cycle 0 exStep 10 10 = some (2, 3, 2) := by decide
  have h2 : find_cycle_with_history 0 exStep 10 = some (2, 3, [0, 1, 2, 3, 4]) := by
    decide
  have h3 := detectors_agree 0 exStep 10 10 10 2 3 2 2 3 [0, 1, 2, 3, 4] h1 h2
  exact ⟨h1, h2, h3.1, h3.2⟩

/-- Counterexample to claim C4 as stated: with `step x = (x + 1) % 2`
from `0`, the first repeat of an earlier state happens at iteration `2`,
and `max_iterations = 2`, so the claim (`1 ≤ i ≤ max_iterations`
suffices) predicts a found cycle — but the code's loop
`for i in range(1, max_iterations)` stops after `max_iterations - 1`
iterations and returns `None`. -/
theorem fcwh_inclusive_bound_counterexample :
    (0 < 2 ∧ (∃ j, j < 2 ∧ stateAt (fun x => (x + 1) % 2) 0 j
        = stateAt (fun x => (x + 1) % 2) 0 2) ∧ 2 ≤ 2) ∧
      find_cycle_with_history (0 : Nat) (fun x => (x + 1) % 2) 2 = none := by
  exact ⟨⟨by decide, ⟨0, by decide, by decide⟩, by decide⟩, by decide⟩

/-- Claim C4 (amended): `find_cycle_with_history` examines iterations
`i = 1, 2, ...` up to `max_iterations - 1` inclusive; it returns a found
cycle exactly when some iteration `i` with `1 ≤ i ≤ max_iterations - 1`
repeats an earlier state, and returns `None` exactly when no repeat
occurs within the first `max_iterations - 1` iterations. -/
theorem fcwh_found_iff (init : S) (step : S → S) (maxIter : Nat) :
    find_cycle_with_history init step maxIter ≠ none ↔
      ∃ r, 0 < r ∧ r < maxIter ∧
        ∃ j, j < r ∧ stateAt step init j = stateAt step init r := by
  constructor
  · intro hne
    cases hfc : find_cycle_with_history init step maxIter with
    | none => exact absurd hfc hne
    | some p =>
      obtain ⟨cs, cl, h⟩ := p
      obtain ⟨hb, hcl, heq, hh, hinj⟩ := fcwh_some_char init step maxIter hfc
      exact ⟨cs + cl, by omega, hb, cs, by omega, heq⟩
  · rintro ⟨r, hr1, hr2, j, hj, he⟩ hnone
    exact fcwh_none_char init step maxIter hnone r hr1 hr2 j hj he

/-- Claim C6: when `simulate_until_repeat` and `find_cycle_with_history`
both report a result on the same inputs, the repeat iteration equals
`cycle_start + cycle_length` and the repeated state equals
`history[cycle_start]`. -/
theorem repeat_cycle_equiv (init : S) (step : S → S) (maxIter : Nat)
    (it : Nat) (s : S) (cs cl : Nat) (hist : List S)
    (h1 : simulate_until_repeat init step maxIter = some (it, s))
    (h2 : find_cycle_with_history init step maxIter = some (cs, cl, hist)) :
    it = cs + cl ∧ hist.get? cs = some s := by
  obtain ⟨hit0, hitm, hs, hrep, hinj1⟩ := sur_some_char init step maxIter h1
  obtain ⟨hb, hcl, heq, hh, hinj2⟩ := fcwh_some_char init step maxIter h2
  have hru : it = cs + cl :=
    firstRepeat_unique (stateAt step init) hrep hinj1
      ⟨cs, by omega, heq⟩ hinj2
  subst hh
  refine ⟨hru, ?_⟩
  rw [stateList_get step init (show cs < cs + cl by omega), hs, hru, heq]

theorem repeat_cycle_equiv_witness :
    simulate_until_repeat 0 exStep 10 = some (5, 2) ∧
      find_cycle_with_history 0 exStep 10 = some (2, 3, [0, 1, 2, 3, 4]) ∧
      (5 : Nat) = 2 + 3 ∧ ([0, 1, 2, 3, 4] : List Nat).get? 2 = some 2 := by
  have h1 : simulate_until_repeat 0 exStep 10 = some (5, 2) := by decide
  have h2 : find_cycle_with_history 0 exStep 10 = some (2, 3, [0, 1, 2, 3, 4]) := by
    decide
  have h3 := repeat_cycle_equiv 0 exStep 10 5 2 2 3 [0, 1, 2, 3, 4] h1 h2
  exact ⟨h1, h2, h3.1, h3.2⟩

/-- Claim C8: if `max_iterations` is set below the true (minimal) cycle
length of an eventually periodic sequence, then `find_cycle`,
`find_cycle_with_history` and `simulate_until_repeat` all terminate
with the explicit `none` outcome. -/
theorem bounded_failure (init : S) (step : S → S) (maxIter fuel mu lam : Nat)
    (hlam : 0 < lam)
    (hper : stateAt step init mu = stateAt step init (mu + lam))
    (hmin : ∀ a L, 0 < L →
      stateAt step init a = stateAt step init (a + L) → lam ≤ L)
    (hbound : maxIter < lam) :
    find_cycle init step maxIter fuel = none ∧
      find_cycle_with_history init step maxIter = none ∧
      simulate_until_repeat init step maxIter = none := by
  refine ⟨?_, ?_, ?_⟩
  · cases hp : floydPhase1 step init init maxIter with
    | none => unfold find_cycle; simp only [hp]
    | some meet =>
      exfalso
      have hp' : floydPhase1 step (stateAt step init 0)
          (stateAt step init (2 * 0)) maxIter = some meet := hp
      obtain ⟨j, hj0, hjm, hjeq, _⟩ :=
        floydPhase1_spec step init maxIter 0 meet hp'
      have hjeq' : stateAt step init j = stateAt step init (j + j) := by
        rw [(by omega : j + j = 2 * j)]; exact hjeq
      have := hmin j j (by omega) hjeq'
      omega
  · cases hfc : find_cycle_with_history init step maxIter with
    | none => rfl
    | some p =>
      exfalso
      obtain ⟨cs, cl, h⟩ := p
      obtain ⟨hb, hcl, heq, _, _⟩ := fcwh_some_char init step maxIter hfc
      have := hmin cs cl hcl heq
      omega
  · cases hs : simulate_until_repeat init step maxIter with
    | none => rfl
    | some p =>
      exfalso
      obtain ⟨it, s⟩ := p
      obtain ⟨hit0, hitm, _, ⟨j, hj, he⟩, _⟩ := sur_some_char init step maxIter hs
      have he' : stateAt step init j = stateAt step init (j + (it - j)) := by
        rw [(by omega : j + (it - j) = it)]; exact he
      have := hmin j (it - j) (by omega) he'
      omega

theorem stateAt_modStep3 (n : Nat) : stateAt modStep3 0 n = n % 3 := by
  induction n with
  | zero => rfl
  | succ n ih =>
    show modStep3 (stateAt modStep3 0 n) = (n + 1) % 3
    rw [ih]
    show (n % 3 + 1) % 3 = (n + 1) % 3
    omega

theorem bounded_failure_witness :
    find_cycle (0 : Nat) modStep3 2 5 = none ∧
      find_cycle_with_history (0 : Nat) modStep3 2 = none ∧
      simulate_until_repeat (0 : Nat) modStep3 2 = none := by
  apply bounded_failure 0 modStep3 2 5 0 3 (by decide) (by decide)
  · intro a L hL h
    rw [stateAt_modStep3, stateAt_modStep3] at h
    omega
  · decide

/-- Claim C9: whenever `find_cycle_with_history` returns
`(cycle_start, cycle_length, history)`, `len(history) = cycle_start +
cycle_length`, and for every target iteration not on the direct branch
the wrapped index `cycle_start + (target - cycle_start) % cycle_length`
is within bounds, so the resolver's history lookup cannot fail. -/
theorem resolver_index_safe (init : S) (step : S → S) (maxIter : Nat)
    (cs cl : Nat) (hist : List S)
    (h : find_cycle_with_history init step maxIter = some (cs, cl, hist)) :
    hist.length = cs + cl ∧
      ∀ t, ¬ (t < hist.length) → cs + (t - cs) % cl < hist.length := by
  obtain ⟨hb, hcl, heq, hh, hinj⟩ := fcwh_some_char init step maxIter h
  subst hh
  have hlen : (stateList step init (cs + cl)).length = cs + cl :=
    stateList_length step init _
  refine ⟨hlen, ?_⟩
  intro t ht
  rw [hlen] at ht
  rw [hlen]
  have := Nat.mod_lt (t - cs) hcl
  omega

theorem resolver_index_safe_witness :
    ([0, 1, 2, 3, 4] : List Nat).length = 2 + 3 ∧
      2 + (7 - 2) % 3 < ([0, 1, 2, 3, 4] : List Nat).length := by
  have h : find_cycle_with_history 0 exStep 10 = some (2, 3, [0, 1, 2, 3, 4]) := by
    decide
  have h2 := resolver_index_safe 0 exStep 10 2 3 [0, 1, 2, 3, 4] h
  exact ⟨h2.1, h2.2 7 (by decide)⟩

/-- The loop of `detect_cycle_in_sequence`, run over the materialized
state sequence, stops at the first repeat index `r` and reports the
index `j0` of the earlier occurrence together with `r - j0`. -/
theorem dcisLoop_finds (step : S → S) (init : S) (r j0 : Nat)
    (hjr : j0 < r) (hrep : stateAt step init j0 = stateAt step init r)
    (hinj : ∀ a b, a < b → b < r → stateAt step init a ≠ stateAt step init b) :
    ∀ k i seen, i ≤ r → r < i + k →
      (∀ j, j < i → lookup seen (stateAt step init j) = some j) →
      (∀ s j, lookup seen s = some j → j < i ∧ stateAt step init j = s) →
      dcisLoop seen i (stateListFrom step init i k) = some (j0, r - j0) := by
  intro k
  induction k with
  | zero => intro i seen h1 h2 _ _; omega
  | succ k ih =>
    intro i seen hir hrk hcomp hsound
    show dcisLoop seen i
        (stateAt step init i :: stateListFrom step init (i + 1) k) = _
    rcases Nat.eq_or_lt_of_le hir with heq | hlt
    · subst heq
      have hl : lookup seen (stateAt step init i) = some j0 := by
        have hc := hcomp j0 (by omega)
        rw [hrep] at hc
        exact hc
      simp only [dcisLoop, hl]
    · have hnone : lookup seen (stateAt step init i) = none := by
        cases hlk : lookup seen (stateAt step init i) with
        | none => rfl
        | some j =>
          exfalso
          obtain ⟨hji, hjeq⟩ := hsound _ j hlk
          exact hinj j i hji hlt hjeq
      simp only [dcisLoop, hnone]
      have hnotin : ∀ j, j < i →
          stateAt step init j ≠ stateAt step init i := by
        intro j hj he
        exact hinj j i hj hlt he
      have hcomp' : ∀ j, j < i + 1 →
          lookup ((stateAt step init i, i) :: seen)
            (stateAt step init j) = some j := by
        intro j hj
        rcases Nat.lt_or_ge j i with hlt2 | hge2
        · have hne : stateAt step init i ≠ stateAt step init j :=
            fun he => hnotin j hlt2 he.symm
          simp only [lookup]
          rw [if_neg hne]
          exact hcomp j hlt2
        · have hj' : j = i := by omega
          subst hj'
          simp [lookup]
      have hsound' : ∀ s j,
          lookup ((stateAt step init i, i) :: seen) s = some j →
          j < i + 1 ∧ stateAt step init j = s := by
        intro s j hl
        simp only [lookup] at hl
        split at hl
        · rename_i heq2
          have hj := Option.some.inj hl
          subst hj
          exact ⟨by omega, heq2⟩
        · obtain ⟨ha, hb2⟩ := hsound s j hl
          exact ⟨by omega, hb2⟩
      exact ih (i + 1) _ (by omega) (by omega) hcomp' hsound'

/-- Claim C7: whenever `find_cycle_with_history` reports
`(cycle_start, cycle_length, history)`, running
`detect_cycle_in_sequence` on the materialized list
`[state_at 0, ..., state_at n]` for any `n ≥ cycle_start + cycle_length`
returns the same `(cycle_start, cycle_length)`. -/
theorem sequence_generative_equiv (init : S) (step : S → S) (maxIter : Nat)
    (cs cl : Nat) (hist : List S) (n : Nat)
    (h : find_cycle_with_history init step maxIter = some (cs, cl, hist))
    (hn : cs + cl ≤ n) :
    detect_cycle_in_sequence (stateList step init (n + 1)) = some (cs, cl) := by
  obtain ⟨hb, hcl, heq, hh, hinj⟩ := fcwh_some_char init step maxIter h
  have hcomp : ∀ j, j < 0 →
      lookup ([] : List (S × Nat)) (stateAt step init j) = some j := by
    intro j hj; omega
  have hsound : ∀ s j, lookup ([] : List (S × Nat)) s = some j →
      j < 0 ∧ stateAt step init j = s := by
    intro s j hl; simp [lookup] at hl
  have hd := dcisLoop_finds step init (cs + cl) cs (by omega) heq hinj
    (n + 1) 0 [] (by omega) (by omega) hcomp hsound
  rw [(by omega : cs + cl - cs = cl)] at hd
  exact hd

theorem sequence_generative_equiv_witness :
    detect_cycle_in_sequence (stateList exStep 0 9) = some (2, 3) :=
  sequence_generative_equiv 0 exStep 10 2 3 [0, 1, 2, 3, 4] 8 (by decide)
    (by decide)

/-! ### The streaming generator -/

/-- Behaviour of the generator's bookkeeping loop while the states it
meets are pairwise distinct: the `n`-th further pull from the suspended
state at iteration `p + 1` yields `(p + 1 + n, state_at (p + 1 + n))`
while fuel remains, and `none` (the generator stops) afterwards. -/
theorem genRun_scan (step : S → S) (init : S) (maxIter : Nat)
    (hinj : ∀ b, b < maxIter → ∀ a, a < b →
      stateAt step init a ≠ stateAt step init b) :
    ∀ n fuel p seen, (p + 1) + fuel = maxIter →
      (∀ s j, lookup seen s = some j → j < p + 1 ∧ stateAt step init j = s) →
      genRun step (GenSt.scan fuel (p + 1) (stateAt step init p) seen) n
        = if n < fuel
          then some (p + 1 + n, stateAt step init (p + 1 + n)) else none := by
  intro n
  induction n with
  | zero =>
    intro fuel p seen harith hsound
    cases fuel with
    | zero => simp [genRun, genNext]
    | succ fuel =>
      have hnone : lookup seen (step (stateAt step init p)) = none := by
        cases hlk : lookup seen (step (stateAt step init p)) with
        | none => rfl
        | some j =>
          exfalso
          obtain ⟨hji, hjeq⟩ := hsound _ j hlk
          exact hinj (p + 1) (by omega) j hji hjeq
      simp only [genRun, genNext, hnone, Option.map]
      rw [if_pos (by omega : 0 < fuel + 1)]
      rfl
  | succ n ih =>
    intro fuel p seen harith hsound
    cases fuel with
    | zero =>
      simp only [genRun, genNext]
      rw [if_neg (by omega : ¬ (n + 1 < 0))]
    | succ fuel =>
      have hnone : lookup seen (step (stateAt step init p)) = none := by
        cases hlk : lookup seen (step (stateAt step init p)) with
        | none => rfl
        | some j =>
          exfalso
          obtain ⟨hji, hjeq⟩ := hsound _ j hlk
          exact hinj (p + 1) (by omega) j hji hjeq
      have hsound' : ∀ s j,
          lookup ((step (stateAt step init p), p + 1) :: seen) s = some j →
          j < (p + 1) + 1 ∧ stateAt step init j = s := by
        intro s j hl
        simp only [lookup] at hl
        split at hl
        · rename_i heq2
          have hj := Option.some.inj hl
          subst hj
          exact ⟨by omega, heq2⟩
        · obtain ⟨ha, hb2⟩ := hsound s j hl
          exact ⟨by omega, hb2⟩
      have hrec := ih fuel (p + 1) ((step (stateAt step init p), p + 1) :: seen)
        (by omega) hsound'
      have hrec' : genRun step
          (GenSt.scan fuel (p + 1 + 1) (step (stateAt step init p))
            ((step (stateAt step init p), p + 1) :: seen)) n
          = if n < fuel
            then some (p + 1 + 1 + n, stateAt step init (p + 1 + 1 + n))
            else none := hrec
      simp only [genRun, genNext, hnone]
      rw [hrec']
      by_cases hnf : n < fuel
      · rw [if_pos hnf, if_pos (by omega : n + 1 < fuel + 1),
          (by omega : p + 1 + (n + 1) = p + 1 + 1 + n)]
      · rw [if_neg hnf, if_neg (by omega : ¬ (n + 1 < fuel + 1))]

/-- Counterexample to claim C5 as stated: with `step x = x + 1` from `0`
and `max_iterations = 2`, the first `2` states are pairwise distinct, so
the claim predicts that the generator keeps yielding for every `n`; but
the code's `for` loop is exhausted after `max_iterations - 1` iterations
and the generator stops: the pull with index `2` returns `none`. -/
theorem gen_unbounded_counterexample :
    (∀ b, b < 2 → ∀ a, a < b →
      stateAt (fun x => x + 1) 0 a ≠ stateAt (fun x => x + 1) 0 b) ∧
      iterate_with_cycle_detection (0 : Nat) (fun x => x + 1) 2 2 = none := by
  exact ⟨by decide, by decide⟩

/-- Claim C5 (amended): when no state repeat occurs among the first
`max_iterations` states (pairwise distinct), the generator does not
continue unboundedly: an `n`-th pulled pair exists exactly for
`n < max_iterations`, after which the generator has stopped. -/
theorem gen_degradation_bounded (init : S) (step : S → S) (maxIter : Nat)
    (hmi : 1 ≤ maxIter)
    (hinj : ∀ b, b < maxIter → ∀ a, a < b →
      stateAt step init a ≠ stateAt step init b) :
    ∀ n, (iterate_with_cycle_detection init step maxIter n).isSome ↔
      n < maxIter := by
  intro n
  cases n with
  | zero => simp [iterate_with_cycle_detection]; omega
  | succ n =>
    have h := genRun_scan step init maxIter hinj n (maxIter - 1) 0 [(init, 0)]
      (by omega) (seed_sound init step)
    have h' : iterate_with_cycle_detection init step maxIter (n + 1)
        = if n < maxIter - 1
          then some (0 + 1 + n, stateAt step init (0 + 1 + n)) else none := h
    rw [h']
    by_cases hnf : n < maxIter - 1
    · rw [if_pos hnf]; simp; omega
    · rw [if_neg hnf]; simp; omega

theorem gen_degradation_bounded_witness :
    ((iterate_with_cycle_detection (0 : Nat) modStep3 3 1).isSome ↔ 1 < 3) ∧
      ¬ (iterate_with_cycle_detection (0 : Nat) modStep3 3 5).isSome := by
  have h := gen_degradation_bounded 0 modStep3 3 (by decide) (by decide)
  exact ⟨h 1, fun hs => by have h2 := (h 5).mp hs; omega⟩

/-- Claim C10: when the first `max_iterations ≥ 1` states are pairwise
distinct, the generator yields exactly `max_iterations` pairs, namely
`(i, state_at i)` for `i = 0, ..., max_iterations - 1` in increasing
order, and then stops yielding. -/
theorem gen_exhaustion_yields (init : S) (step : S → S) (maxIter : Nat)
    (hmi : 1 ≤ maxIter)
    (hinj : ∀ b, b < maxIter → ∀ a, a < b →
      stateAt step init a ≠ stateAt step init b) :
    (∀ n, n < maxIter → iterate_with_cycle_detection init step maxIter n
        = some (n, stateAt step init n)) ∧
      (∀ n, maxIter ≤ n →
        iterate_with_cycle_detection init step maxIter n = none) := by
  constructor
  · intro n hn
    cases n with
    | zero => rfl
    | succ n =>
      have h := genRun_scan step init maxIter hinj n (maxIter - 1) 0 [(init, 0)]
        (by omega) (seed_sound init step)
      have h' : iterate_with_cycle_detection init step maxIter (n + 1)
          = if n < maxIter - 1
            then some (0 + 1 + n, stateAt step init (0 + 1 + n)) else none := h
      rw [h', if_pos (by omega : n < maxIter - 1),
        (by omega : 0 + 1 + n = n + 1)]
  · intro n hn
    cases n with
    | zero => omega
    | succ n =>
      have h := genRun_scan step init maxIter hinj n (maxIter - 1) 0 [(init, 0)]
        (by omega) (seed_sound init step)
      have h' : iterate_with_cycle_detection init step maxIter (n + 1)
          = if n < maxIter - 1
            then some (0 + 1 + n, stateAt step init (0 + 1 + n)) else none := h
      rw [h', if_neg (by omega : ¬ (n < maxIter - 1))]

theorem gen_exhaustion_yields_witness :
    iterate_with_cycle_detection (0 : Nat) modStep3 3 2 = some (2, 2) ∧
      iterate_with_cycle_detection (0 : Nat) modStep3 3 3 = none := by
  have h := gen_exhaustion_yields 0 modStep3 3 (by decide) (by decide)
  refine ⟨?_, h.2 3 (by decide)⟩
  rw [h.1 2 (by decide)]
  decide

end Fraocme
